import Mathlib

/-!
Verification development for the MetaMCP gateway.

Part 1 models the frontend glue code that ships in the repository:
the auth proxy route (proxyAuthRequest) and the environment-URL helpers
(getApiUrl / getAbsoluteApiUrl).  Part 2 models the gateway core
(session pool, namespace aggregator, middleware pipeline, downstream
connections) from the design specification, since only its deployment
and documentation surface is present in the tree.
-/

namespace MetaMCP

/-! ### Environment URL helpers (frontend lib env.ts) -/

/-- JavaScript truthiness test for a string-valued environment variable:
an unset variable and the empty string are both falsy. -/
def falsy : Option String → Bool
  | none => true
  | some s => decide (s.data = [])

/-- Hardcoded production backend URL used as the final fallback. -/
def hardcodedBackendUrl : String :=
  "https://metamcp-backend-555166161772.us-central1.run.app"

/-- Model of the JavaScript method String.startsWith, written over the
character list so that it evaluates by kernel reduction. -/
def strStartsWith (s p : String) : Bool :=
  decide (s.data.take p.data.length = p.data)

/-- Test used throughout env.ts: does the string start with an
http or https scheme. -/
def isAbsoluteUrl (s : String) : Bool :=
  strStartsWith s "http://" || strStartsWith s "https://"

/-- Environment as seen by the env.ts helpers: the two public URL
variables, each possibly unset. -/
structure Env where
  apiUrl : Option String
  appUrl : Option String

/-- Model of getAppUrl: throws when NEXT_PUBLIC_APP_URL is falsy,
otherwise returns it. -/
def getAppUrl (e : Env) : Except Unit String :=
  if falsy e.appUrl then Except.error () else Except.ok (e.appUrl.getD "")

/-- Model of getApiUrl (the part_004 variant): falls back to the
hardcoded backend URL when NEXT_PUBLIC_API_URL is falsy; never throws. -/
def getApiUrl (e : Env) : String :=
  if falsy e.apiUrl then hardcodedBackendUrl else e.apiUrl.getD ""

/-- Body of the try block of getAbsoluteApiUrl; an error value models a
thrown exception reaching the catch handler. -/
def getAbsoluteApiUrlTry (e : Env) : Except Unit String :=
  if isAbsoluteUrl (getApiUrl e) then Except.ok (getApiUrl e)
  else if !falsy e.apiUrl && isAbsoluteUrl (e.apiUrl.getD "") then
    Except.ok (e.apiUrl.getD "")
  else
    match getAppUrl e with
    | Except.error u => Except.error u
    | Except.ok appUrl =>
      if isAbsoluteUrl appUrl then Except.ok appUrl else Except.error ()

/-- Model of getAbsoluteApiUrl: the catch handler converts any thrown
error into the hardcoded backend URL, so the function is total. -/
def getAbsoluteApiUrl (e : Env) : String :=
  match getAbsoluteApiUrlTry e with
  | Except.ok s => s
  | Except.error _ => hardcodedBackendUrl

/-! ### Auth proxy route (frontend api/auth catch-all route) -/

/-- Request headers copied to the backend by proxyAuthRequest. -/
def headersToProxy : List String :=
  ["content-type", "authorization", "cookie", "user-agent", "accept",
    "accept-language"]

/-- Response headers copied back to the client by proxyAuthRequest. -/
def headersToForward : List String :=
  ["content-type", "set-cookie", "cache-control", "expires", "etag",
    "last-modified"]

/-- Incoming request as consumed by proxyAuthRequest: method, a header
lookup (none models an absent header), the body text (none models a body
that could not be read, which the code swallows), the catch-all auth path
segments and the query string. -/
structure IncomingRequest where
  method : String
  header : String → Option String
  bodyText : Option String
  authPath : List String
  searchParams : String

/-- Header projection used in both directions of the proxy: keep only the
names in the given list, skipping absent and empty (falsy) values. -/
def filteredHeaders (names : List String) (h : String → Option String) :
    List (String × String) :=
  names.filterMap (fun n =>
    match h n with
    | some v => if falsy (some v) then none else some (n, v)
    | none => none)

/-- Target URL construction of proxyAuthRequest: backend URL, the literal
auth path, and the query string when it is nonempty (truthy). -/
def targetUrl (backendUrl : String) (authPath : List String)
    (searchParams : String) : String :=
  if falsy (some searchParams) then
    backendUrl ++ "/api/auth/" ++ String.intercalate "/" authPath
  else
    backendUrl ++ "/api/auth/" ++ String.intercalate "/" authPath
      ++ "?" ++ searchParams

/-- Request actually sent to the backend by the fetch call. -/
structure BackendRequest where
  url : String
  method : String
  headers : List (String × String)
  body : Option String
deriving DecidableEq

/-- Body forwarding rule: the body is sent only for methods other than
GET and HEAD. -/
def proxiedBody (method : String) (bodyText : Option String) :
    Option String :=
  if method ≠ "GET" ∧ method ≠ "HEAD" then bodyText else none

/-- The backend request assembled by proxyAuthRequest before the fetch,
from the env variable NEXT_PUBLIC_API_URL and the incoming request. -/
def buildBackendRequest (apiUrlVar : Option String) (r : IncomingRequest) :
    BackendRequest :=
  { url := targetUrl
      (if falsy apiUrlVar then hardcodedBackendUrl else apiUrlVar.getD "")
      r.authPath r.searchParams
    method := r.method
    headers := filteredHeaders headersToProxy r.header
    body := proxiedBody r.method r.bodyText }

/-- Backend response as observed by proxyAuthRequest after the fetch and
after reading the response text. -/
structure BackendResponse where
  status : Nat
  statusText : String
  header : String → Option String
  text : String

/-- Response returned to the client of the proxy route. -/
structure ClientResponse where
  status : Nat
  statusText : String
  headers : List (String × String)
  body : String

/-- Exact JSON body produced by the catch handler of proxyAuthRequest. -/
def authProxyFailedBody : String := "\x7b\"error\":\"Auth proxy failed\"\x7d"

/-- Model of proxyAuthRequest after the backend interaction: the Except
argument is the combined outcome of the fetch call and of reading the
response text, an error meaning that one of them threw, which lands in the
catch handler. The function is total, modelling that no exception escapes. -/
def proxyAuthRequest (_r : IncomingRequest)
    (fetchResult : Except Unit BackendResponse) : ClientResponse :=
  match fetchResult with
  | Except.ok resp =>
    { status := resp.status
      statusText := resp.statusText
      headers := filteredHeaders headersToForward resp.header
      body := resp.text }
  | Except.error _ =>
    { status := 500
      statusText := ""
      headers := [("content-type", "application/json")]
      body := authProxyFailedBody }

/-- Request that carries a header outside the proxied list. -/
def proxyReqA : IncomingRequest :=
  { method := "POST"
    header := fun n =>
      if n = "cookie" then some "sid=1"
      else if n = "x-forwarded-for" then some "1.2.3.4" else none
    bodyText := some "payload"
    authPath := ["sign-in"]
    searchParams := "" }

/-- Same request with the non-proxied header dropped. -/
def proxyReqB : IncomingRequest :=
  { method := "POST"
    header := fun n => if n = "cookie" then some "sid=1" else none
    bodyText := some "payload"
    authPath := ["sign-in"]
    searchParams := "" }

/-! ### Downstream connection lifecycle (spec section 4.1) -/

/-- Modelled from the spec: the downstream connection state machine
Dialing, Ready, Busy, Draining, Failed, Closed; the running code of this
component is not in the tree. -/
inductive ConnState where
  | dialing
  | ready
  | busy
  | draining
  | failed
  | closed
deriving DecidableEq

/-- Modelled from the spec: one live channel to one configured MCP server;
handleOpen records whether the owned child process or HTTP stream handle
is still open. -/
structure DownstreamConnection where
  serverName : String
  state : ConnState
  handleOpen : Bool
  lastActivity : Nat
deriving DecidableEq

/-- Modelled from the spec: close terminates the owned process or stream
and moves the connection to Closed; on an already Closed connection it
does nothing, and it raises no error on any input (a total function). -/
def closeConn (c : DownstreamConnection) : DownstreamConnection :=
  if c.state = ConnState.closed then c
  else { c with state := ConnState.closed, handleOpen := false }

/-! ### Namespace catalog construction (spec section 4.3) -/

/-- Modelled from the spec: a member server of a namespace together with
the capability names it advertised during discovery. -/
structure MemberServer where
  name : String
  caps : List String
deriving DecidableEq

/-- Modelled from the spec: the qualified external name
serverName/capabilityName used to retain a colliding capability. -/
def qualifiedName (srv cap : String) : String := srv ++ "/" ++ cap

/-- Catalog entry: externally visible name, then owning server name and
original capability name. -/
abbrev CatalogEntry := String × String × String

/-- Modelled from the spec: insert one capability into the catalog; the
first insertion of a given external name wins, and a later colliding name
is retained under the qualified form. -/
def insertCap (cat : List CatalogEntry) (srv cap : String) :
    List CatalogEntry :=
  if (cat.lookup cap).isSome then
    cat ++ [(qualifiedName srv cap, srv, cap)]
  else cat ++ [(cap, srv, cap)]

/-- Insert a list of (server, capability) pairs in order. -/
def insertAll : List CatalogEntry → List (String × String) → List CatalogEntry
  | cat, [] => cat
  | cat, (srv, cap) :: rest => insertAll (insertCap cat srv cap) rest

/-- Modelled from the spec: the (server name, capability name) pairs of a
namespace in configured member order. -/
def memberPairs (members : List MemberServer) : List (String × String) :=
  members.flatMap (fun m => m.caps.map (fun c => (m.name, c)))

/-- Modelled from the spec: activation, and every refresh, rebuilds the
NamespaceCatalog by inserting each member server's capabilities in the
namespace's configured member order. -/
def buildCatalog (members : List MemberServer) : List CatalogEntry :=
  insertAll [] (memberPairs members)

/-- First server in pair order that advertises the given capability name. -/
def firstOwner (ps : List (String × String)) (cap : String) : Option String :=
  (ps.find? (fun p => p.2 == cap)).map (fun p => p.1)

/-- External key under which an advertised pair ends up in the catalog:
its bare capability name when it is the first advertiser of that name in
member order, its qualified name otherwise. -/
def entryFor (all : List (String × String)) (p : String × String) :
    CatalogEntry :=
  if firstOwner all p.2 = some p.1 then (p.2, p)
  else (qualifiedName p.1 p.2, p)

/-! ### Namespace aggregator runtime state (spec section 4.3) -/

/-- Modelled from the spec: namespace runtime state: the current catalog
snapshot plus the member servers currently marked unavailable. -/
structure NamespaceState where
  catalog : List CatalogEntry
  failedServers : List String
deriving DecidableEq

inductive InvokeError where
  | unknownCapability
  | serverUnavailable
deriving DecidableEq

/-- Modelled from the spec: a discovery or invocation failure on one
member marks that member unavailable; the catalog itself is untouched. -/
def markFailed (st : NamespaceState) (m : String) : NamespaceState :=
  { st with failedServers :=
      if m ∈ st.failedServers then st.failedServers else m :: st.failedServers }

/-- Modelled from the spec: a successful refresh of one member clears its
unavailable mark. -/
def refreshServer (st : NamespaceState) (m : String) : NamespaceState :=
  { st with failedServers := st.failedServers.filter (fun s => s != m) }

/-- Catalog entries owned by one member server, as listed to clients. -/
def listCapabilitiesOf (st : NamespaceState) (srv : String) :
    List CatalogEntry :=
  st.catalog.filter (fun e => e.2.1 == srv)

/-- Modelled from the spec: invoke looks the capability up in the catalog
and routes to the owning server when that server is available. -/
def invokeCap (st : NamespaceState) (capName : String) :
    Except InvokeError (String × String) :=
  match st.catalog.lookup capName with
  | none => Except.error InvokeError.unknownCapability
  | some (srv, cap) =>
    if srv ∈ st.failedServers then Except.error InvokeError.serverUnavailable
    else Except.ok (srv, cap)

/-! ### Session pool (spec section 4.2) -/

/-- Modelled from the spec: per-server pool configuration: idle ceiling,
idle floor, idle timeout. -/
structure PoolConfig where
  ceiling : Nat
  floor : Nat
  idleTimeout : Nat
deriving DecidableEq

/-- Modelled from the spec: one server's pool, partitioned into idle and
in-use connection ids; nextId is the next fresh connection id to dial.
Pools of different servers are independent, so one server's pool is the
unit of state. -/
structure PoolState where
  idle : List Nat
  inUse : List Nat
  nextId : Nat
deriving DecidableEq

inductive BorrowResult where
  | borrowed (id : Nat)
  | poolExhausted
deriving DecidableEq

/-- Modelled from the spec: borrow returns an idle connection if one
exists, otherwise dials a new one if the per-server ceiling is not
reached, otherwise, when no return arrives before the timeout, fails with
PoolExhausted. Blocking that ends in the timeout is modelled as the
PoolExhausted outcome with the state unchanged. -/
def borrow (cfg : PoolConfig) (s : PoolState) : BorrowResult × PoolState :=
  match s.idle with
  | id :: rest =>
    (BorrowResult.borrowed id, { s with idle := rest, inUse := id :: s.inUse })
  | [] =>
    if s.idle.length + s.inUse.length < cfg.ceiling then
      (BorrowResult.borrowed s.nextId,
        { s with inUse := s.nextId :: s.inUse, nextId := s.nextId + 1 })
    else (BorrowResult.poolExhausted, s)

/-- Modelled from the spec: returning a healthy connection moves it back
to idle subject to the ceiling (an excess idle connection is closed
instead); an unhealthy connection is retired. -/
def returnConn (cfg : PoolConfig) (s : PoolState) (id : Nat)
    (healthy : Bool) : PoolState :=
  let rest := s.inUse.filter (fun j => j != id)
  if healthy then
    if s.idle.length < cfg.ceiling then
      { s with inUse := rest, idle := id :: s.idle }
    else { s with inUse := rest }
  else { s with inUse := rest }

/-- Modelled from the spec: the background reaper closes idle connections
that exceeded the idle timeout; which connections are expired is supplied
as a predicate. -/
def reap (s : PoolState) (expired : Nat → Bool) : PoolState :=
  { s with idle := s.idle.filter (fun id => !expired id) }

/-- Modelled from the spec: the background top-up dials fresh connections
until the idle count reaches the configured floor. -/
def topUp (cfg : PoolConfig) (s : PoolState) : PoolState :=
  let need := cfg.floor - s.idle.length
  { s with
    idle := s.idle ++ (List.range need).map (fun i => s.nextId + i)
    nextId := s.nextId + need }

/-- One pool transition: a borrow, a return of an in-use connection, a
reaper pass, or a top-up pass. -/
inductive PoolStep (cfg : PoolConfig) : PoolState → PoolState → Prop where
  | borrowStep (s : PoolState) : PoolStep cfg s (borrow cfg s).2
  | returnStep (s : PoolState) (id : Nat) (healthy : Bool)
      (hmem : id ∈ s.inUse) : PoolStep cfg s (returnConn cfg s id healthy)
  | reapStep (s : PoolState) (expired : Nat → Bool) :
      PoolStep cfg s (reap s expired)
  | topUpStep (s : PoolState) : PoolStep cfg s (topUp cfg s)

/-- The empty pool every server starts from. -/
def initPool : PoolState := { idle := [], inUse := [], nextId := 0 }

/-- States reachable by any sequence of pool operations. -/
inductive PoolReachable (cfg : PoolConfig) : PoolState → Prop where
  | init : PoolReachable cfg initPool
  | step (s t : PoolState) (hs : PoolReachable cfg s)
      (hstep : PoolStep cfg s t) : PoolReachable cfg t

/-- Pool partition invariant: the two partitions are duplicate-free and
disjoint, every id is below the fresh counter, and the idle count
respects the ceiling. -/
def PoolInv (cfg : PoolConfig) (s : PoolState) : Prop :=
  (s.idle ++ s.inUse).Nodup
  ∧ (∀ id ∈ s.idle ++ s.inUse, id < s.nextId)
  ∧ s.idle.length ≤ cfg.ceiling

/-! ### Middleware pipeline (spec section 4.4) -/

/-- Modelled from the spec: a middleware stage: a numeric identity used
to observe invocation order, a request transform that either continues
with a possibly rewritten request or short-circuits with a response, and
a response transform. -/
structure MiddlewareStage (Req Resp : Type) where
  id : Nat
  onRequest : Req → Req ⊕ Resp
  onResponse : Resp → Resp

/-- Modelled from the spec: apply the request transforms in list order;
the returned trace lists the ids of the stages actually invoked, in
invocation order. -/
def applyRequest {Req Resp : Type} :
    List (MiddlewareStage Req Resp) → Req → (Req ⊕ Resp) × List Nat
  | [], r => (Sum.inl r, [])
  | s :: rest, r =>
    match s.onRequest r with
    | Sum.inl r2 =>
      let p := applyRequest rest r2
      (p.1, s.id :: p.2)
    | Sum.inr resp => (Sum.inr resp, [s.id])

/-- Modelled from the spec: apply the response transforms in reverse list
order; the trace lists the ids of the invoked stages in invocation
order. -/
def applyResponse {Req Resp : Type} :
    List (MiddlewareStage Req Resp) → Resp → Resp × List Nat
  | [], resp => (resp, [])
  | s :: rest, resp =>
    let p := applyResponse rest resp
    (s.onResponse p.1, p.2 ++ [s.id])

/-- Modelled from the spec: full request handling: the request pipeline,
then the aggregator unless some stage short-circuited, then the response
pipeline; the boolean records whether the aggregator was invoked. -/
def handleRequest {Req Resp : Type} (stages : List (MiddlewareStage Req Resp))
    (aggregator : Req → Resp) (r : Req) : Resp × List Nat × Bool :=
  match applyRequest stages r with
  | (Sum.inl r2, tr) =>
    let p := applyResponse stages (aggregator r2)
    (p.1, tr ++ p.2, true)
  | (Sum.inr resp, tr) => (resp, tr, false)

/-- Sample stage 1: increments the request, doubles the response. -/
def stageA : MiddlewareStage Nat Nat :=
  { id := 1, onRequest := fun r => Sum.inl (r + 1), onResponse := fun x => x * 2 }

/-- Sample stage 2: scales the request, shifts the response. -/
def stageB : MiddlewareStage Nat Nat :=
  { id := 2, onRequest := fun r => Sum.inl (r * 10), onResponse := fun x => x + 3 }

/-- Sample stage that always short-circuits with response 99. -/
def stageC : MiddlewareStage Nat Nat :=
  { id := 3, onRequest := fun _ => Sum.inr 99, onResponse := fun x => x }

end MetaMCP

namespace MetaMCP

theorem isAbsoluteUrl_hardcoded : isAbsoluteUrl hardcodedBackendUrl = true := by
  decide

theorem isAbsoluteUrl_not_falsy {v : String} (h : isAbsoluteUrl v = true) :
    falsy (some v) = false := by
  simp only [falsy, decide_eq_false_iff_not]
  intro hv
  simp only [isAbsoluteUrl, strStartsWith, hv, Bool.or_eq_true, decide_eq_true_eq,
    List.take_nil] at h
  rcases h with h | h <;> exact absurd h.symm (by decide)

theorem getApiUrl_of_absolute {e : Env} {v : String} (hset : e.apiUrl = some v)
    (habs : isAbsoluteUrl v = true) : getApiUrl e = v := by
  simp [getApiUrl, hset, isAbsoluteUrl_not_falsy habs]

theorem getAbsoluteApiUrlTry_ok_absolute {e : Env} {s : String}
    (h : getAbsoluteApiUrlTry e = Except.ok s) : isAbsoluteUrl s = true := by
  unfold getAbsoluteApiUrlTry at h
  split at h
  · cases h; assumption
  · split at h
    · rename_i hc
      simp only [Bool.and_eq_true] at hc
      cases h
      exact hc.2
    · revert h
      split
      · intro h; cases h
      · split
        · intro h; cases h; assumption
        · intro h; cases h

/-- Claim C10: getAbsoluteApiUrl is total and always yields an absolute URL:
for every assignment of NEXT_PUBLIC_API_URL and NEXT_PUBLIC_APP_URL
(including both unset) it never throws (it is a total function whose catch
branch absorbs every thrown error) and returns a string starting with
http or https; when NEXT_PUBLIC_API_URL is set to an absolute URL it
returns that value unchanged; and on every failure (thrown) path it
returns the hardcoded backend URL. -/
theorem getAbsoluteApiUrl_total_and_absolute :
    (∀ e : Env, isAbsoluteUrl (getAbsoluteApiUrl e) = true)
    ∧ (∀ (e : Env) (v : String), e.apiUrl = some v → isAbsoluteUrl v = true →
        getAbsoluteApiUrl e = v)
    ∧ (∀ (e : Env) (u : Unit), getAbsoluteApiUrlTry e = Except.error u →
        getAbsoluteApiUrl e = hardcodedBackendUrl) := by
  refine ⟨fun e => ?_, fun e v hset habs => ?_, fun e u herr => ?_⟩
  · unfold getAbsoluteApiUrl
    cases htry : getAbsoluteApiUrlTry e with
    | ok s => exact getAbsoluteApiUrlTry_ok_absolute htry
    | error _ => exact isAbsoluteUrl_hardcoded
  · have hget : getApiUrl e = v := getApiUrl_of_absolute hset habs
    unfold getAbsoluteApiUrl getAbsoluteApiUrlTry
    rw [hget, habs]
    simp
  · unfold getAbsoluteApiUrl
    rw [herr]

/-- Concrete instance of the C10 theorem: with NEXT_PUBLIC_API_URL set to
an absolute URL and NEXT_PUBLIC_APP_URL unset, the helper returns the
configured value unchanged. -/
theorem getAbsoluteApiUrl_total_and_absolute_witness :
    getAbsoluteApiUrl ⟨some "https://x", none⟩ = "https://x" :=
  getAbsoluteApiUrl_total_and_absolute.2.1 ⟨some "https://x", none⟩ "https://x"
    rfl (by decide)

/-- Claim C8: proxyAuthRequest never propagates an exception to its caller:
it is a total function of the request and of the outcome of the backend
interaction (modelled as an Except value covering both the fetch and the
response-text read). When that outcome is an error it returns HTTP 500
with the fixed JSON failure body; otherwise the returned status and
statusText equal those of the backend response and the body is the backend
response text. -/
theorem proxyAuthRequest_never_throws :
    (∀ r : IncomingRequest,
      proxyAuthRequest r (Except.error ()) =
        { status := 500, statusText := "",
          headers := [("content-type", "application/json")],
          body := authProxyFailedBody })
    ∧ (∀ (r : IncomingRequest) (b : BackendResponse),
        (proxyAuthRequest r (Except.ok b)).status = b.status
        ∧ (proxyAuthRequest r (Except.ok b)).statusText = b.statusText
        ∧ (proxyAuthRequest r (Except.ok b)).body = b.text) :=
  ⟨fun _ => rfl, fun _ _ => ⟨rfl, rfl, rfl⟩⟩

theorem filteredHeaders_congr {names : List String}
    {h1 h2 : String → Option String} (h : ∀ n ∈ names, h1 n = h2 n) :
    filteredHeaders names h1 = filteredHeaders names h2 := by
  induction names with
  | nil => rfl
  | cons a t ih =>
    simp only [filteredHeaders, List.filterMap_cons] at ih ⊢
    rw [h a (List.mem_cons_self a t), ih (fun n hn => h n (List.mem_cons_of_mem a hn))]

theorem proxiedBody_congr {m1 m2 : String} {b1 b2 : Option String}
    (hm : m1 = m2) (hb : (m1 ≠ "GET" ∧ m1 ≠ "HEAD") → b1 = b2) :
    proxiedBody m1 b1 = proxiedBody m2 b2 := by
  subst hm
  unfold proxiedBody
  split
  · rw [hb (by assumption)]
  · rfl

/-- Claim C9: the proxy forwards to the backend only the headers
content-type, authorization, cookie, user-agent, accept, accept-language,
and forwards the body only for methods other than GET and HEAD: two
incoming requests differing only in headers outside that list, or only in
the body of a GET/HEAD request, produce the identical backend request.
Symmetrically, only content-type, set-cookie, cache-control, expires,
etag, last-modified flow from the backend response to the client response. -/
theorem proxyAuthRequest_header_whitelist :
    (∀ (apiUrlVar : Option String) (r1 r2 : IncomingRequest),
      r1.method = r2.method → r1.authPath = r2.authPath →
      r1.searchParams = r2.searchParams →
      (∀ n ∈ headersToProxy, r1.header n = r2.header n) →
      ((r1.method ≠ "GET" ∧ r1.method ≠ "HEAD") → r1.bodyText = r2.bodyText) →
      buildBackendRequest apiUrlVar r1 = buildBackendRequest apiUrlVar r2)
    ∧ (∀ (r : IncomingRequest) (b1 b2 : BackendResponse),
      b1.status = b2.status → b1.statusText = b2.statusText →
      b1.text = b2.text →
      (∀ n ∈ headersToForward, b1.header n = b2.header n) →
      proxyAuthRequest r (Except.ok b1) = proxyAuthRequest r (Except.ok b2)) := by
  constructor
  · intro apiUrlVar r1 r2 hm hpath hq hh hb
    unfold buildBackendRequest
    rw [proxiedBody_congr hm hb, hm, hpath, hq, filteredHeaders_congr hh]
  · intro r b1 b2 hs hst ht hh
    simp only [proxyAuthRequest]
    rw [hs, hst, ht, filteredHeaders_congr hh]

/-- Concrete instance of the C9 theorem: two requests differing only in
the x-forwarded-for header (outside the proxied list) produce the same
backend request. -/
theorem proxyAuthRequest_header_whitelist_witness :
    buildBackendRequest none proxyReqA = buildBackendRequest none proxyReqB :=
  proxyAuthRequest_header_whitelist.1 none proxyReqA proxyReqB rfl rfl rfl
    (by decide) (fun _ => rfl)

/-- Claim C7: close on a DownstreamConnection is idempotent: calling it on
an already Closed connection raises no error (the model is a total
function) and leaves the observable state, including the owned handle,
unchanged; close composed with itself equals a single close. -/
theorem closeConn_idempotent :
    (∀ c : DownstreamConnection, c.state = ConnState.closed → closeConn c = c)
    ∧ (∀ c : DownstreamConnection, closeConn (closeConn c) = closeConn c) := by
  have hfix : ∀ c : DownstreamConnection, c.state = ConnState.closed →
      closeConn c = c := by
    intro c h
    simp [closeConn, h]
  refine ⟨hfix, fun c => ?_⟩
  apply hfix
  unfold closeConn
  split
  · assumption
  · rfl

/-- Concrete instance of the C7 theorem: a second close of an already
closed connection changes nothing. -/
theorem closeConn_idempotent_witness :
    closeConn ⟨"A", ConnState.closed, false, 0⟩ =
      ⟨"A", ConnState.closed, false, 0⟩ :=
  closeConn_idempotent.1 ⟨"A", ConnState.closed, false, 0⟩ rfl

/-- Claim C6: a discovery or invocation failure of member m never touches
the other members' catalog entries: marking m failed leaves the whole
catalog unchanged, capability listings of every server are unchanged,
invoke on a capability owned by any server other than m behaves exactly
as before, while a capability owned by m is unavailable after the failure
and available again after the next successful refresh of m. -/
theorem markFailed_isolation :
    (∀ (st : NamespaceState) (m : String),
      (markFailed st m).catalog = st.catalog)
    ∧ (∀ (st : NamespaceState) (m srv : String),
      listCapabilitiesOf (markFailed st m) srv = listCapabilitiesOf st srv)
    ∧ (∀ (st : NamespaceState) (m capName srv cap : String),
      st.catalog.lookup capName = some (srv, cap) → srv ≠ m →
      invokeCap (markFailed st m) capName = invokeCap st capName)
    ∧ (∀ (st : NamespaceState) (m capName cap : String),
      st.catalog.lookup capName = some (m, cap) →
      invokeCap (markFailed st m) capName =
        Except.error InvokeError.serverUnavailable)
    ∧ (∀ (st : NamespaceState) (m capName cap : String),
      st.catalog.lookup capName = some (m, cap) →
      invokeCap (refreshServer (markFailed st m) m) capName =
        Except.ok (m, cap)) := by
  have hmem : ∀ (st : NamespaceState) (m x : String),
      (x ∈ (markFailed st m).failedServers) ↔
        (x = m ∨ x ∈ st.failedServers) := by
    intro st m x
    unfold markFailed
    split
    · rename_i hin
      simp only []
      constructor
      · exact fun h => Or.inr h
      · rintro (rfl | h)
        · exact hin
        · exact h
    · simp [List.mem_cons]
  have hcat : ∀ (st : NamespaceState) (m : String),
      (markFailed st m).catalog = st.catalog := fun st m => rfl
  have hcat2 : ∀ (st : NamespaceState) (m : String),
      (refreshServer (markFailed st m) m).catalog = st.catalog := fun st m => rfl
  refine ⟨hcat, fun st m srv => rfl, ?_, ?_, ?_⟩
  · intro st m capName srv cap hlook hne
    simp only [invokeCap, hcat, hlook]
    by_cases h : srv ∈ st.failedServers
    · rw [if_pos ((hmem st m srv).2 (Or.inr h)), if_pos h]
    · rw [if_neg, if_neg h]
      intro hc
      rcases (hmem st m srv).1 hc with hc1 | hc2
      · exact hne hc1
      · exact h hc2
  · intro st m capName cap hlook
    simp only [invokeCap, hcat, hlook]
    rw [if_pos ((hmem st m m).2 (Or.inl rfl))]
  · intro st m capName cap hlook
    simp only [invokeCap, hcat2, hlook]
    rw [if_neg]
    intro hc
    simp only [refreshServer, List.mem_filter, bne_self_eq_false,
      Bool.false_eq_true, and_false] at hc

/-- Concrete instance of the C6 theorem: with servers A and B in the
catalog, a failure of B leaves invocation of the capability owned by A
exactly as before. -/
theorem markFailed_isolation_witness :
    invokeCap
        (markFailed
          ⟨[("search", "A", "search"), ("B/search", "B", "search")], []⟩ "B")
        "search"
      = invokeCap
        ⟨[("search", "A", "search"), ("B/search", "B", "search")], []⟩
        "search" :=
  markFailed_isolation.2.2.1
    ⟨[("search", "A", "search"), ("B/search", "B", "search")], []⟩
    "B" "search" "A" "search" (by decide) (by decide)

theorem applyRequest_continue_trace {Req Resp : Type}
    {stages : List (MiddlewareStage Req Resp)} :
    ∀ {r r2 : Req} {tr : List Nat},
    applyRequest stages r = (Sum.inl r2, tr) →
    tr = stages.map (fun s => s.id) := by
  induction stages with
  | nil =>
    intro r r2 tr h
    simp only [applyRequest, Prod.mk.injEq] at h
    exact h.2.symm
  | cons s rest ih =>
    intro r r2 tr h
    cases hsr : s.onRequest r with
    | inl r3 =>
      simp only [applyRequest, hsr, Prod.mk.injEq] at h
      obtain ⟨h1, h2⟩ := h
      have hp : applyRequest rest r3 = (Sum.inl r2, (applyRequest rest r3).2) := by
        rw [← h1]
      rw [← h2, List.map_cons, ih hp]
    | inr resp =>
      simp only [applyRequest, hsr, Prod.mk.injEq] at h
      exact absurd h.1 (by simp)

theorem applyRequest_shortcircuit_trace {Req Resp : Type}
    {stages : List (MiddlewareStage Req Resp)} :
    ∀ {r : Req} {resp : Resp} {tr : List Nat},
    applyRequest stages r = (Sum.inr resp, tr) →
    ∃ i, i < stages.length ∧ tr = (stages.take (i + 1)).map (fun s => s.id) := by
  induction stages with
  | nil =>
    intro r resp tr h
    simp only [applyRequest, Prod.mk.injEq] at h
    exact absurd h.1 (by simp)
  | cons s rest ih =>
    intro r resp tr h
    cases hsr : s.onRequest r with
    | inl r3 =>
      simp only [applyRequest, hsr, Prod.mk.injEq] at h
      obtain ⟨h1, h2⟩ := h
      have hp : applyRequest rest r3 = (Sum.inr resp, (applyRequest rest r3).2) := by
        rw [← h1]
      obtain ⟨i, hi, htr⟩ := ih hp
      refine ⟨i + 1, by simpa using Nat.succ_lt_succ hi, ?_⟩
      rw [← h2, htr]
      rfl
    | inr resp2 =>
      simp only [applyRequest, hsr, Prod.mk.injEq, Sum.inr.injEq] at h
      exact ⟨0, by simp, by rw [← h.2]; simp⟩

/-- Claim C5: for an endpoint with stages in list order, the request
transforms are invoked in exactly list order before the aggregator (the
trace of a request that no stage short-circuits is the full stage id list
in order), the response transforms run in exactly reverse list order, a
short-circuit at stage number i leaves a trace that stops at stage i
(stages after i are never invoked), and a short-circuited request never
reaches the aggregator. -/
theorem middleware_pipeline_order :
    (∀ (Req Resp : Type) (stages : List (MiddlewareStage Req Resp))
      (r r2 : Req) (tr : List Nat),
      applyRequest stages r = (Sum.inl r2, tr) →
      tr = stages.map (fun s => s.id))
    ∧ (∀ (Req Resp : Type) (stages : List (MiddlewareStage Req Resp))
      (r : Req) (resp : Resp) (tr : List Nat),
      applyRequest stages r = (Sum.inr resp, tr) →
      ∃ i, i < stages.length ∧ tr = (stages.take (i + 1)).map (fun s => s.id))
    ∧ (∀ (Req Resp : Type) (stages : List (MiddlewareStage Req Resp))
      (aggregator : Req → Resp) (r : Req) (resp : Resp) (tr : List Nat),
      applyRequest stages r = (Sum.inr resp, tr) →
      handleRequest stages aggregator r = (resp, tr, false))
    ∧ (∀ (Req Resp : Type) (stages : List (MiddlewareStage Req Resp))
      (resp : Resp),
      (applyResponse stages resp).2 = (stages.map (fun s => s.id)).reverse
      ∧ (applyResponse stages resp).1 =
        stages.foldr (fun s x => s.onResponse x) resp) := by
  refine ⟨fun _ _ _ _ _ _ h => applyRequest_continue_trace h,
    fun _ _ _ _ _ _ h => applyRequest_shortcircuit_trace h,
    fun Req Resp stages aggregator r resp tr h => ?_,
    fun Req Resp stages resp => ?_⟩
  · simp only [handleRequest, h]
  · induction stages with
    | nil => exact ⟨rfl, rfl⟩
    | cons s rest ih =>
      simp only [applyResponse, List.map_cons, List.reverse_cons, List.foldr_cons]
      exact ⟨by rw [ih.1], by rw [ih.2]⟩

/-- Concrete instance of the C5 theorem: two pass-through stages are
invoked in list order, and a short-circuiting middle stage stops the
pipeline before the aggregator. -/
theorem middleware_pipeline_order_witness :
    ([1, 2] = ([stageA, stageB].map (fun s => s.id)))
    ∧ handleRequest [stageA, stageC, stageB] (fun r => r) 0 = (99, [1, 3], false) :=
  ⟨middleware_pipeline_order.1 Nat Nat [stageA, stageB] 0 10 [1, 2] rfl,
   middleware_pipeline_order.2.2.1 Nat Nat [stageA, stageC, stageB]
     (fun r => r) 0 99 [1, 3] rfl⟩

theorem poolInv_preserved {cfg : PoolConfig} (hfc : cfg.floor ≤ cfg.ceiling)
    {s t : PoolState} (hstep : PoolStep cfg s t) (hinv : PoolInv cfg s) :
    PoolInv cfg t := by
  obtain ⟨hnd, hlt, hle⟩ := hinv
  cases hstep with
  | borrowStep =>
    cases hidle : s.idle with
    | cons id rest =>
      have hb : (borrow cfg s).2 =
          { s with idle := rest, inUse := id :: s.inUse } := by
        simp [borrow, hidle]
      rw [hb]
      rw [hidle] at hnd hle
      have hnd2 : (id :: (rest ++ s.inUse)).Nodup := by simpa using hnd
      obtain ⟨hid, hrest⟩ := List.nodup_cons.1 hnd2
      rw [List.nodup_append] at hrest
      refine ⟨?_, ?_, ?_⟩
      · show (rest ++ id :: s.inUse).Nodup
        rw [List.nodup_append]
        refine ⟨hrest.1, ?_, ?_⟩
        · rw [List.nodup_cons]
          exact ⟨fun h => hid (List.mem_append.2 (Or.inr h)), hrest.2.1⟩
        · intro a ha hmem
          rcases List.mem_cons.1 hmem with rfl | hmem2
          · exact hid (List.mem_append.2 (Or.inl ha))
          · exact hrest.2.2 ha hmem2
      · show ∀ x ∈ rest ++ id :: s.inUse, x < s.nextId
        intro x hx
        rcases List.mem_append.1 hx with hx | hx
        · exact hlt x (by simp [hidle, hx])
        · rcases List.mem_cons.1 hx with rfl | hx
          · exact hlt x (by simp [hidle])
          · exact hlt x (by simp [hidle, hx])
      · show rest.length ≤ cfg.ceiling
        simp only [List.length_cons] at hle
        omega
    | nil =>
      by_cases hcap : s.idle.length + s.inUse.length < cfg.ceiling
      · have hcap2 : s.inUse.length < cfg.ceiling := by
          rw [hidle] at hcap
          simpa using hcap
        have hb : (borrow cfg s).2 =
            { s with inUse := s.nextId :: s.inUse, nextId := s.nextId + 1 } := by
          simp [borrow, hidle, hcap2]
        rw [hb]
        refine ⟨?_, ?_, ?_⟩
        · show (s.idle ++ s.nextId :: s.inUse).Nodup
          rw [hidle, List.nil_append, List.nodup_cons]
          have hnd2 : s.inUse.Nodup := by rw [hidle] at hnd; simpa using hnd
          exact ⟨fun hmem => Nat.lt_irrefl _ (hlt _ (by simp [hidle, hmem])),
            hnd2⟩
        · show ∀ x ∈ s.idle ++ s.nextId :: s.inUse, x < s.nextId + 1
          intro x hx
          rw [hidle, List.nil_append] at hx
          rcases List.mem_cons.1 hx with rfl | hx
          · omega
          · have := hlt x (by simp [hidle, hx]); omega
        · show s.idle.length ≤ cfg.ceiling
          rw [hidle]
          exact Nat.zero_le _
      · have hcap2 : ¬s.inUse.length < cfg.ceiling := by
          rw [hidle] at hcap
          simpa using hcap
        have hb : (borrow cfg s).2 = s := by
          simp [borrow, hidle, hcap2]
        rw [hb]
        exact ⟨hnd, hlt, hle⟩
  | returnStep id healthy hmem =>
    rw [List.nodup_append] at hnd
    have hidne : id ∉ s.idle := fun hin => hnd.2.2 hin hmem
    have hsub : List.Sublist (s.inUse.filter (fun j => j != id)) s.inUse :=
      List.filter_sublist s.inUse
    have hndf : (s.idle ++ s.inUse.filter (fun j => j != id)).Nodup := by
      rw [List.nodup_append]
      exact ⟨hnd.1, hnd.2.1.sublist hsub,
        fun a ha haf => hnd.2.2 ha (hsub.subset haf)⟩
    have hltf : ∀ x ∈ s.idle ++ s.inUse.filter (fun j => j != id),
        x < s.nextId := by
      intro x hx
      rcases List.mem_append.1 hx with hx | hx
      · exact hlt x (List.mem_append.2 (Or.inl hx))
      · exact hlt x (List.mem_append.2 (Or.inr (hsub.subset hx)))
    cases healthy with
    | true =>
      by_cases hroom : s.idle.length < cfg.ceiling
      · have hb : returnConn cfg s id true =
            { s with
              inUse := s.inUse.filter (fun j => j != id)
              idle := id :: s.idle } := by
          simp [returnConn, hroom]
        rw [hb]
        refine ⟨?_, ?_, ?_⟩
        · show ((id :: s.idle) ++ s.inUse.filter (fun j => j != id)).Nodup
          rw [List.cons_append, List.nodup_cons]
          refine ⟨?_, hndf⟩
          intro hin
          rcases List.mem_append.1 hin with hin | hin
          · exact hidne hin
          · simpa using (List.mem_filter.1 hin).2
        · show ∀ x ∈ (id :: s.idle) ++ s.inUse.filter (fun j => j != id),
            x < s.nextId
          intro x hx
          rw [List.cons_append] at hx
          rcases List.mem_cons.1 hx with rfl | hx
          · exact hlt x (List.mem_append.2 (Or.inr hmem))
          · exact hltf x hx
        · show (id :: s.idle).length ≤ cfg.ceiling
          simp only [List.length_cons]
          omega
      · have hb : returnConn cfg s id true =
            { s with inUse := s.inUse.filter (fun j => j != id) } := by
          simp [returnConn, hroom]
        rw [hb]
        exact ⟨hndf, hltf, hle⟩
    | false =>
      have hb : returnConn cfg s id false =
          { s with inUse := s.inUse.filter (fun j => j != id) } := rfl
      rw [hb]
      exact ⟨hndf, hltf, hle⟩
  | reapStep expired =>
    have hsub : List.Sublist (s.idle.filter (fun id => !expired id)) s.idle :=
      List.filter_sublist s.idle
    refine ⟨?_, ?_, ?_⟩
    · show (s.idle.filter (fun id => !expired id) ++ s.inUse).Nodup
      exact hnd.sublist (hsub.append_right s.inUse)
    · show ∀ x ∈ s.idle.filter (fun id => !expired id) ++ s.inUse,
        x < s.nextId
      intro x hx
      apply hlt
      rcases List.mem_append.1 hx with hx | hx
      · exact List.mem_append.2 (Or.inl (hsub.subset hx))
      · exact List.mem_append.2 (Or.inr hx)
    · show (s.idle.filter (fun id => !expired id)).length ≤ cfg.ceiling
      calc (s.idle.filter (fun id => !expired id)).length
          ≤ s.idle.length := hsub.length_le
        _ ≤ cfg.ceiling := hle
  | topUpStep =>
    have hfresh : ∀ x ∈ (List.range (cfg.floor - s.idle.length)).map
        (fun i => s.nextId + i), s.nextId ≤ x := by
      intro x hx
      obtain ⟨i, _, rfl⟩ := List.mem_map.1 hx
      exact Nat.le_add_right _ _
    refine ⟨?_, ?_, ?_⟩
    · show ((s.idle ++ (List.range (cfg.floor - s.idle.length)).map
          (fun i => s.nextId + i)) ++ s.inUse).Nodup
      have hnew : ((List.range (cfg.floor - s.idle.length)).map
          (fun i => s.nextId + i)).Nodup :=
        List.Nodup.map (fun a b h => by omega) (List.nodup_range _)
      rw [List.nodup_append] at hnd
      rw [List.nodup_append, List.nodup_append]
      refine ⟨⟨hnd.1, hnew, ?_⟩, hnd.2.1, ?_⟩
      · intro a ha hamem
        have h1 : a < s.nextId := hlt a (List.mem_append.2 (Or.inl ha))
        have h2 : s.nextId ≤ a := hfresh a hamem
        omega
      · intro a ha hamem
        rcases List.mem_append.1 ha with ha | ha
        · exact hnd.2.2 ha hamem
        · have h1 : a < s.nextId := hlt a (List.mem_append.2 (Or.inr hamem))
          have h2 : s.nextId ≤ a := hfresh a ha
          omega
    · show ∀ x ∈ (s.idle ++ (List.range (cfg.floor - s.idle.length)).map
          (fun i => s.nextId + i)) ++ s.inUse,
        x < s.nextId + (cfg.floor - s.idle.length)
      intro x hx
      rcases List.mem_append.1 hx with hx | hx
      · rcases List.mem_append.1 hx with hx | hx
        · have := hlt x (List.mem_append.2 (Or.inl hx)); omega
        · obtain ⟨i, hi, rfl⟩ := List.mem_map.1 hx
          have := List.mem_range.1 hi
          omega
      · have := hlt x (List.mem_append.2 (Or.inr hx)); omega
    · show (s.idle ++ (List.range (cfg.floor - s.idle.length)).map
          (fun i => s.nextId + i)).length ≤ cfg.ceiling
      simp only [List.length_append, List.length_map, List.length_range]
      omega

/-- Claim C3: in every state reachable by any sequence of pool operations
(borrows, returns of in-use connections, reaper passes, top-up passes),
each connection id belongs to exactly one of the two partitions idle and
in-use of its server, the partitions are duplicate-free, and the idle
count never exceeds the configured per-server ceiling; the floor does not
exceed the ceiling in a valid configuration. -/
theorem pool_partition_invariant (cfg : PoolConfig) (s : PoolState)
    (hfc : cfg.floor ≤ cfg.ceiling) (hreach : PoolReachable cfg s) :
    PoolInv cfg s ∧ (∀ id : Nat, ¬(id ∈ s.idle ∧ id ∈ s.inUse)) := by
  have hinv : PoolInv cfg s := by
    induction hreach with
    | init => exact ⟨List.nodup_nil, by simp [initPool], Nat.zero_le _⟩
    | step s t hs hstep ih => exact poolInv_preserved hfc hstep ih
  refine ⟨hinv, fun id hboth => ?_⟩
  obtain ⟨hnd, -, -⟩ := hinv
  rw [List.nodup_append] at hnd
  exact hnd.2.2 hboth.1 hboth.2

/-- Concrete instance of the C3 theorem at the initial pool with ceiling
and floor one. -/
theorem pool_partition_invariant_witness :
    PoolInv ⟨1, 1, 0⟩ initPool
    ∧ (∀ id : Nat, ¬(id ∈ initPool.idle ∧ id ∈ initPool.inUse)) :=
  pool_partition_invariant ⟨1, 1, 0⟩ initPool (Nat.le_refl 1)
    PoolReachable.init

/-- Claim C4: borrow returns the idle connection when one exists (moving
it to the in-use partition), otherwise dials a new connection when the
per-server ceiling is not reached, and otherwise fails with PoolExhausted
once the timeout elapses with no intervening return; with ceiling one and
floor one, of two borrows with no return in between exactly the first
succeeds and the second fails with PoolExhausted leaving the state
unchanged. -/
theorem borrow_behavior :
    (∀ (cfg : PoolConfig) (s : PoolState) (id : Nat) (rest : List Nat),
      s.idle = id :: rest →
      borrow cfg s = (BorrowResult.borrowed id,
        { s with idle := rest, inUse := id :: s.inUse }))
    ∧ (∀ (cfg : PoolConfig) (s : PoolState), s.idle = [] →
      s.idle.length + s.inUse.length < cfg.ceiling →
      borrow cfg s = (BorrowResult.borrowed s.nextId,
        { s with inUse := s.nextId :: s.inUse, nextId := s.nextId + 1 }))
    ∧ (∀ (cfg : PoolConfig) (s : PoolState), s.idle = [] →
      ¬(s.idle.length + s.inUse.length < cfg.ceiling) →
      borrow cfg s = (BorrowResult.poolExhausted, s))
    ∧ (borrow ⟨1, 1, 0⟩ initPool).1 = BorrowResult.borrowed 0
    ∧ (borrow ⟨1, 1, 0⟩ (borrow ⟨1, 1, 0⟩ initPool).2).1 =
        BorrowResult.poolExhausted
    ∧ (borrow ⟨1, 1, 0⟩ (borrow ⟨1, 1, 0⟩ initPool).2).2 =
        (borrow ⟨1, 1, 0⟩ initPool).2 := by
  refine ⟨?_, ?_, ?_, rfl, rfl, rfl⟩
  · intro cfg s id rest h
    simp [borrow, h]
  · intro cfg s h hcap
    have hcap2 : s.inUse.length < cfg.ceiling := by
      rw [h] at hcap
      simpa using hcap
    simp [borrow, h, hcap2]
  · intro cfg s h hcap
    have hcap2 : ¬s.inUse.length < cfg.ceiling := by
      rw [h] at hcap
      simpa using hcap
    simp [borrow, h, hcap2]

/-- Concrete instance of the C4 theorem: borrowing from a pool with one
idle connection returns it and moves it to the in-use partition. -/
theorem borrow_behavior_witness :
    borrow ⟨1, 1, 0⟩ ⟨[5], [], 6⟩ =
      (BorrowResult.borrowed 5, ⟨[], [5], 6⟩) :=
  borrow_behavior.1 ⟨1, 1, 0⟩ ⟨[5], [], 6⟩ 5 [] rfl

theorem lookup_isSome_iff {β : Type} {l : List (String × β)} {k : String} :
    (l.lookup k).isSome = true ↔ ∃ v, (k, v) ∈ l := by
  induction l with
  | nil => simp
  | cons e t ih =>
    obtain ⟨k0, v0⟩ := e
    by_cases hk : k = k0
    · subst hk
      simp [List.lookup_cons]
    · have hbeq : (k == k0) = false := by simpa using hk
      simp [List.lookup_cons, hbeq, ih, hk]

theorem mem_keys_iff_lookup {β : Type} {l : List (String × β)} {k : String} :
    k ∈ l.map Prod.fst ↔ (l.lookup k).isSome = true := by
  rw [lookup_isSome_iff]
  constructor
  · intro hmem
    obtain ⟨e, he, hek⟩ := List.mem_map.1 hmem
    exact ⟨e.2, by rwa [← hek, Prod.mk.eta]⟩
  · intro ⟨v, hv⟩
    exact List.mem_map.2 ⟨(k, v), hv, rfl⟩

theorem lookup_eq_some_of_mem_nodupKeys {β : Type} {l : List (String × β)}
    {k : String} {v : β} (hnd : (l.map Prod.fst).Nodup) (hmem : (k, v) ∈ l) :
    l.lookup k = some v := by
  induction l with
  | nil => cases hmem
  | cons e t ih =>
    obtain ⟨k0, v0⟩ := e
    rw [List.map_cons, List.nodup_cons] at hnd
    rcases List.mem_cons.1 hmem with heq | hmem2
    · obtain ⟨rfl, rfl⟩ := Prod.mk.injEq .. ▸ heq
      simp [List.lookup_cons]
    · have hk : k ≠ k0 := by
        intro h
        subst h
        exact hnd.1 (List.mem_map.2 ⟨(k, v), hmem2, rfl⟩)
      have hbeq : (k == k0) = false := by simpa using hk
      rw [List.lookup_cons]
      simp only [hbeq]
      exact ih hnd.2 hmem2

theorem insertAll_spec (all : List (String × String))
    (hnd : all.Nodup)
    (hfresh : ∀ p ∈ all, ∀ q ∈ all, qualifiedName p.1 p.2 ≠ q.2)
    (hinj : ∀ p ∈ all, ∀ q ∈ all,
      qualifiedName p.1 p.2 = qualifiedName q.1 q.2 → p = q) :
    ∀ (rest done : List (String × String)) (cat : List CatalogEntry),
    all = done ++ rest →
    (∀ e ∈ cat, ∃ p ∈ done,
      e.2 = p ∧ (e.1 = p.2 ∨ e.1 = qualifiedName p.1 p.2)) →
    (cat.map Prod.fst).Nodup →
    (∀ p ∈ done, entryFor all p ∈ cat) →
    ((insertAll cat rest).map Prod.fst).Nodup
    ∧ (∀ p ∈ all, entryFor all p ∈ insertAll cat rest)
    ∧ (∀ e ∈ insertAll cat rest, ∃ p ∈ all,
        e.2 = p ∧ (e.1 = p.2 ∨ e.1 = qualifiedName p.1 p.2)) := by
  intro rest
  induction rest with
  | nil =>
    intro done cat hall hent hknd hchar
    rw [List.append_nil] at hall
    subst hall
    exact ⟨hknd, fun p hp => hchar p hp, fun e he => hent e he⟩
  | cons hd rest2 ih =>
    obtain ⟨s, c⟩ := hd
    intro done cat hall hent hknd hchar
    have hdsub : ∀ x ∈ done, x ∈ all := by
      intro x hx
      rw [hall]
      exact List.mem_append_left _ hx
    have hcur_mem : (s, c) ∈ all := by
      rw [hall]
      exact List.mem_append_right _ (List.mem_cons_self _ _)
    have hnotdone : (s, c) ∉ done := by
      intro hmem
      rw [hall, List.nodup_append] at hnd
      exact hnd.2.2 hmem (List.mem_cons_self _ _)
    have hsome_to_done : (cat.lookup c).isSome = true →
        ∃ p ∈ done, p.2 = c := by
      intro hsome
      obtain ⟨v, hv⟩ := lookup_isSome_iff.1 hsome
      obtain ⟨p, hp, hep, hkey⟩ := hent (c, v) hv
      rcases hkey with hkey | hkey
      · exact ⟨p, hp, hkey.symm⟩
      · exact absurd hkey.symm (hfresh p (hdsub p hp) (s, c) hcur_mem)
    have hdone_to_first : (∃ p ∈ done, p.2 = c) →
        ∃ q ∈ done, q.2 = c ∧ firstOwner all c = some q.1 := by
      rintro ⟨p, hp, hpc⟩
      have hfind_done : (done.find? (fun r => r.2 == c)).isSome = true :=
        List.find?_isSome.2 ⟨p, hp, by simpa using hpc⟩
      obtain ⟨q, hq⟩ := Option.isSome_iff_exists.1 hfind_done
      have hqmem : q ∈ done := List.mem_of_find?_eq_some hq
      have hqc : q.2 = c := by simpa using List.find?_some hq
      have hfa : all.find? (fun r => r.2 == c) = some q := by
        rw [hall, List.find?_append, hq]
        rfl
      exact ⟨q, hqmem, hqc, by simp [firstOwner, hfa]⟩
    have hdone_to_some : (∃ p ∈ done, p.2 = c) →
        (cat.lookup c).isSome = true := by
      intro hex
      obtain ⟨q, hq, hqc, hqf⟩ := hdone_to_first hex
      have hcond : firstOwner all q.2 = some q.1 := by
        rw [hqc]
        exact hqf
      have hentry := hchar q hq
      rw [entryFor, if_pos hcond] at hentry
      rw [hqc] at hentry
      exact lookup_isSome_iff.2 ⟨q, hentry⟩
    cases hlook : (cat.lookup c).isSome with
    | false =>
      have hcat2 : insertCap cat s c = cat ++ [((c : String), (s, c))] := by
        unfold insertCap
        rw [hlook]
        simp
      have hnone : done.find? (fun r => r.2 == c) = none := by
        rw [List.find?_eq_none]
        intro x hx hxc
        have hcon : (cat.lookup c).isSome = true :=
          hdone_to_some ⟨x, hx, by simpa using hxc⟩
        simp [hlook] at hcon
      have hfo : firstOwner all c = some s := by
        simp only [firstOwner, hall, List.find?_append, hnone]
        simp
      refine ih (done ++ [(s, c)]) (insertCap cat s c) ?_ ?_ ?_ ?_
      · rw [hall, List.append_assoc]
        rfl
      · intro e he
        rw [hcat2] at he
        rcases List.mem_append.1 he with he | he
        · obtain ⟨p, hp, hep, hkey⟩ := hent e he
          exact ⟨p, List.mem_append_left _ hp, hep, hkey⟩
        · have heq : e = ((c : String), (s, c)) := by simpa using he
          subst heq
          exact ⟨(s, c), List.mem_append_right _ (by simp), rfl, Or.inl rfl⟩
      · rw [hcat2, List.map_append, List.nodup_append]
        refine ⟨hknd, by simp, ?_⟩
        intro a ha hac
        have hac2 : a = c := by simpa using hac
        subst hac2
        have hcon : (cat.lookup a).isSome = true := mem_keys_iff_lookup.1 ha
        simp [hlook] at hcon
      · intro p hp
        rcases List.mem_append.1 hp with hp | hp
        · rw [hcat2]
          exact List.mem_append_left _ (hchar p hp)
        · have hps : p = (s, c) := by simpa using hp
          subst hps
          have hef : entryFor all (s, c) = ((c : String), (s, c)) := by
            simp only [entryFor]
            rw [if_pos hfo]
          rw [hef, hcat2]
          exact List.mem_append_right _ (by simp)
    | true =>
      have hcat2 : insertCap cat s c = cat ++ [(qualifiedName s c, (s, c))] := by
        unfold insertCap
        rw [hlook]
        simp
      obtain ⟨q, hq, hqc, hqf⟩ := hdone_to_first (hsome_to_done hlook)
      have hqs : q.1 ≠ s := by
        intro h
        apply hnotdone
        have hqe : q = (s, c) := by
          obtain ⟨q1, q2⟩ := q
          simp only at h hqc
          rw [h, hqc]
        rwa [hqe] at hq
      have hfo_ne : ¬ firstOwner all c = some s := by
        rw [hqf]
        intro h
        exact hqs (Option.some.inj h)
      have hqual_notin : qualifiedName s c ∉ cat.map Prod.fst := by
        intro hmem
        obtain ⟨e, he, hek⟩ := List.mem_map.1 hmem
        obtain ⟨p, hp, hep, hkey⟩ := hent e he
        rcases hkey with hkey | hkey
        · exact hfresh (s, c) hcur_mem p (hdsub p hp) (by rw [← hek, hkey])
        · have heq : qualifiedName s c = qualifiedName p.1 p.2 := by
            rw [← hek, hkey]
          have hpe := hinj (s, c) hcur_mem p (hdsub p hp) heq
          rw [← hpe] at hp
          exact hnotdone hp
      refine ih (done ++ [(s, c)]) (insertCap cat s c) ?_ ?_ ?_ ?_
      · rw [hall, List.append_assoc]
        rfl
      · intro e he
        rw [hcat2] at he
        rcases List.mem_append.1 he with he | he
        · obtain ⟨p, hp, hep, hkey⟩ := hent e he
          exact ⟨p, List.mem_append_left _ hp, hep, hkey⟩
        · have heq : e = (qualifiedName s c, (s, c)) := by simpa using he
          subst heq
          exact ⟨(s, c), List.mem_append_right _ (by simp), rfl, Or.inr rfl⟩
      · rw [hcat2, List.map_append, List.nodup_append]
        refine ⟨hknd, by simp, ?_⟩
        intro a ha hac
        have hac2 : a = qualifiedName s c := by simpa using hac
        subst hac2
        exact hqual_notin ha
      · intro p hp
        rcases List.mem_append.1 hp with hp | hp
        · rw [hcat2]
          exact List.mem_append_left _ (hchar p hp)
        · have hps : p = (s, c) := by simpa using hp
          subst hps
          have hef : entryFor all (s, c) = (qualifiedName s c, (s, c)) := by
            simp only [entryFor]
            rw [if_neg hfo_ne]
          rw [hef, hcat2]
          exact List.mem_append_right _ (by simp)

/-- Claim C1 (amended): for a namespace whose advertised (server,
capability) pairs are pairwise distinct and whose qualified names
serverName/capabilityName neither coincide with any advertised bare
capability name nor with each other for distinct pairs, the built catalog
resolves a bare capability name to the first server in configured member
order that advertised it, resolves the qualified name of every later
colliding pair to that pair, and leaves no advertised capability without
an external name that resolves to it. -/
theorem catalog_collision_precedence (members : List MemberServer)
    (hnd : (memberPairs members).Nodup)
    (hfresh : ∀ p ∈ memberPairs members, ∀ q ∈ memberPairs members,
      qualifiedName p.1 p.2 ≠ q.2)
    (hinj : ∀ p ∈ memberPairs members, ∀ q ∈ memberPairs members,
      qualifiedName p.1 p.2 = qualifiedName q.1 q.2 → p = q) :
    (∀ (cap srv : String),
      firstOwner (memberPairs members) cap = some srv →
      (buildCatalog members).lookup cap = some (srv, cap))
    ∧ (∀ p ∈ memberPairs members,
      firstOwner (memberPairs members) p.2 ≠ some p.1 →
      (buildCatalog members).lookup (qualifiedName p.1 p.2) = some p)
    ∧ (∀ p ∈ memberPairs members,
      ∃ k, (buildCatalog members).lookup k = some p) := by
  have h := insertAll_spec (memberPairs members) hnd hfresh hinj
    (memberPairs members) [] [] rfl
    (fun e he => absurd he (List.not_mem_nil e))
    (by simp)
    (fun p hp => absurd hp (List.not_mem_nil p))
  refine ⟨?_, ?_, ?_⟩
  · intro cap srv hfo
    rcases hres : (memberPairs members).find? (fun r => r.2 == cap)
        with _ | q
    · unfold firstOwner at hfo
      rw [hres] at hfo
      simp at hfo
    · have hq1 : q.1 = srv := by
        unfold firstOwner at hfo
        rw [hres] at hfo
        simpa using hfo
      have hqmem := List.mem_of_find?_eq_some hres
      have hqc : q.2 = cap := by simpa using List.find?_some hres
      have hqpair : q = (srv, cap) := by
        rw [← hq1, ← hqc]
      rw [hqpair] at hqmem
      have hcond : firstOwner (memberPairs members) (srv, cap).2 =
          some (srv, cap).1 := by
        show firstOwner (memberPairs members) cap = some srv
        exact hfo
      have hchar := h.2.1 (srv, cap) hqmem
      rw [entryFor, if_pos hcond] at hchar
      exact lookup_eq_some_of_mem_nodupKeys h.1 hchar
  · intro p hp hne
    have hchar := h.2.1 p hp
    rw [entryFor, if_neg hne] at hchar
    exact lookup_eq_some_of_mem_nodupKeys h.1 hchar
  · intro p hp
    have hchar := h.2.1 p hp
    rw [entryFor] at hchar
    split at hchar
    · exact ⟨p.2, lookup_eq_some_of_mem_nodupKeys h.1 hchar⟩
    · exact ⟨qualifiedName p.1 p.2, lookup_eq_some_of_mem_nodupKeys h.1 hchar⟩

/-- Counterexample to claim C1 as stated: when server A itself advertises
a capability literally named B/search, the later colliding capability
search of server B is no longer reachable under its qualified name
B/search, which resolves to A's capability instead. -/
theorem catalog_collision_precedence_counterexample :
    ¬((buildCatalog [⟨"A", ["search", "B/search"]⟩, ⟨"B", ["search"]⟩]).lookup
        "B/search" = some ("B", "search")) := by
  decide

/-- Concrete instance of the C1 theorem: servers A and B both advertise
search; the bare name resolves to A, the qualified name B/search resolves
to B's capability. -/
theorem catalog_collision_precedence_witness :
    (buildCatalog [⟨"A", ["search"]⟩, ⟨"B", ["search"]⟩]).lookup "search"
      = some ("A", "search")
    ∧ (buildCatalog [⟨"A", ["search"]⟩, ⟨"B", ["search"]⟩]).lookup "B/search"
      = some ("B", "search") := by
  have h := catalog_collision_precedence
    [⟨"A", ["search"]⟩, ⟨"B", ["search"]⟩] (by decide) (by decide) (by decide)
  refine ⟨h.1 "search" "A" (by decide), ?_⟩
  have h2 := h.2.1 ("B", "search") (by decide) (by decide)
  simpa [qualifiedName] using h2

/-- Claim C2 (amended): under the same side conditions as the C1 theorem
(pairwise distinct advertised pairs, qualified names clashing neither
with advertised bare names nor with each other), every catalog built by
activation or refresh has pairwise distinct externally visible names, and
each externally visible name determines a unique (owning server,
capability) pair. -/
theorem catalog_unique_names (members : List MemberServer)
    (hnd : (memberPairs members).Nodup)
    (hfresh : ∀ p ∈ memberPairs members, ∀ q ∈ memberPairs members,
      qualifiedName p.1 p.2 ≠ q.2)
    (hinj : ∀ p ∈ memberPairs members, ∀ q ∈ memberPairs members,
      qualifiedName p.1 p.2 = qualifiedName q.1 q.2 → p = q) :
    ((buildCatalog members).map Prod.fst).Nodup
    ∧ (∀ (k : String) (v1 v2 : String × String),
      (k, v1) ∈ buildCatalog members → (k, v2) ∈ buildCatalog members →
      v1 = v2) := by
  have h := insertAll_spec (memberPairs members) hnd hfresh hinj
    (memberPairs members) [] [] rfl
    (fun e he => absurd he (List.not_mem_nil e))
    (by simp)
    (fun p hp => absurd hp (List.not_mem_nil p))
  refine ⟨h.1, fun k v1 v2 h1 h2 => ?_⟩
  have e1 := lookup_eq_some_of_mem_nodupKeys h.1 h1
  have e2 := lookup_eq_some_of_mem_nodupKeys h.1 h2
  rw [e1] at e2
  exact Option.some.inj e2

/-- Counterexample to claim C2 as stated: when server A itself advertises
a capability literally named B/search, inserting server B's colliding
capability search under its qualified name duplicates the externally
visible name B/search. -/
theorem catalog_unique_names_counterexample :
    ¬(((buildCatalog
        [⟨"A", ["search", "B/search"]⟩, ⟨"B", ["search"]⟩]).map
          Prod.fst).Nodup) := by
  decide

/-- Concrete instance of the C2 theorem: with A and B both advertising
search, the built catalog has pairwise distinct external names. -/
theorem catalog_unique_names_witness :
    ((buildCatalog [⟨"A", ["search"]⟩, ⟨"B", ["search"]⟩]).map
      Prod.fst).Nodup :=
  (catalog_unique_names [⟨"A", ["search"]⟩, ⟨"B", ["search"]⟩]
    (by decide) (by decide) (by decide)).1

end MetaMCP
